import Mathlib

/-!
Verification of the sparse assembly/merge engine of `EMaligner/EMaligner.py`.

The Python source is shallowly embedded: numpy float arrays become `List ℚ`,
integer index arrays become `List ℤ` or `List ℕ`, dictionaries become
structures, and operations that can raise (`list.index`, fancy-index
assignment out of bounds, `np.concatenate` of an empty list) return `Option`.
Tile identifiers are modelled as natural numbers (the code only compares and
sorts them).  External collaborators (the match store, the transform model)
are inputs to the embedded functions.
-/

namespace EMaligner

/-- Configuration dictionary `args['matrix_assembly']` from the schema:
the fields read by `calculate_processing_chunk` and `tilepair_weight`. -/
structure MatrixAssembly where
  explicit_weight_by_depth : Option (List ℚ)
  depth : List ℕ
  montage_pt_weight : ℚ
  cross_pt_weight : ℚ
  inverse_dz : Bool
  npts_min : ℕ
  npts_max : ℕ
  choose_random : Bool
deriving DecidableEq

/-- One entry of the pair list: the two section values (`z1`, `z2`) of a
tile-pair group.  (`section1`/`section2` are only used for the external
match fetch and are not needed by the embedded computation.) -/
structure Pair where
  z1 : ℤ
  z2 : ℤ
deriving DecidableEq

/-- Embedding of `tilepair_weight(z1, z2, matrix_assembly)` (EMaligner.py
lines 174-185).  `matrix_assembly['depth'].index(int(np.abs(z1 - z2)))`
raises `ValueError` when the distance does not occur in the depth list, and
`explicit_weight_by_depth[ind]` raises `IndexError` when out of range; both
failure modes are modelled by `none`. -/
def tilepair_weight (z1 z2 : ℤ) (ma : MatrixAssembly) : Option ℚ :=
  match ma.explicit_weight_by_depth with
  | some tbl =>
    match List.indexOf? (z1 - z2).natAbs ma.depth with
    | some ind => tbl.get? ind
    | none => none
  | none =>
    some (if z1 = z2 then ma.montage_pt_weight
          else if ma.inverse_dz then
            ma.cross_pt_weight / (((z2 - z1).natAbs : ℚ) + 1)
          else ma.cross_pt_weight)

end EMaligner

namespace EMaligner

/-- Concrete configuration of spec §8 item 5: depth table `[0 ↦ 1.0, 1 ↦ 0.5]`,
montage weight `2.0`, cross weight `1.0`, inverse-distance weighting off. -/
def maC3 : MatrixAssembly :=
  { explicit_weight_by_depth := some [1, 1/2]
    depth := [0, 1]
    montage_pt_weight := 2
    cross_pt_weight := 1
    inverse_dz := false
    npts_min := 0
    npts_max := 0
    choose_random := false }

/-- One point-match record, as far as the engine inspects it: the source and
target tile identifiers (`m['pId']`, `m['qId']`).  `mdata` stands for the
point/weight payload, which only the external transform model reads. -/
structure PtMatch where
  pId : ℕ
  qId : ℕ
  mdata : ℕ
deriving DecidableEq

/-- The `in1d` filter of `calculate_processing_chunk` (lines 58-62): keep a
match only if both its tile ids occur in the global `tile_ids` array. -/
def filter_instack (tile_ids : List ℕ) (ms : List PtMatch) : List PtMatch :=
  ms.filter (fun m => tile_ids.contains m.pId && tile_ids.contains m.qId)

/-- Comparison of tile-id array positions by (key value, position):
`np.argsort(tile_ids)` sorts positions by their key; ties are broken by
position (the tie-break is unobservable when the keys are distinct). -/
def argsortRel (xs : List ℕ) (i j : ℕ) : Prop :=
  xs.getD i 0 < xs.getD j 0 ∨ (xs.getD i 0 = xs.getD j 0 ∧ i ≤ j)

instance (xs : List ℕ) : DecidableRel (argsortRel xs) := fun i j => by
  unfold argsortRel
  infer_instance

/-- Embedding of `sorter = np.argsort(tile_ids)` (line 29): the list of
positions of `tile_ids` ordered so that the keys come out sorted. -/
def np_argsort (xs : List ℕ) : List ℕ :=
  List.insertionSort (argsortRel xs) (List.range xs.length)

/-- Embedding of `np.searchsorted(a_sorted, v)` (side='left'): the leftmost
insertion index of `v` in the sorted array, i.e. the length of the prefix of
entries smaller than `v`. -/
def searchsorted_left (a : List ℕ) (v : ℕ) : ℕ :=
  (a.takeWhile (fun x => x < v)).length

/-- Embedding of `sorter[np.searchsorted(tile_ids, v, sorter=sorter)]`
(lines 87-88): resolve a tile id to its position in `tile_ids` by binary
search against the sorted view `tile_ids[sorter]`. -/
def resolve_ind (tile_ids : List ℕ) (v : ℕ) : ℕ :=
  (np_argsort tile_ids).getD
    (searchsorted_left ((np_argsort tile_ids).map (fun i => tile_ids.getD i 0)) v) 0

/-- A local CSR sub-block `(d, ind, iptr, wts, npts)` as returned by the
external `transform.CSR_from_tilepair` for one point match. -/
structure SubBlock where
  d : List ℚ
  ind : List ℤ
  iptr : List ℤ
  wts : List ℚ
  npts : ℕ
deriving DecidableEq

/-- The external transform model (`AlignerTransform`): its two per-row size
constants and its sub-block generator
`CSR_from_tilepair(match, pind, qind, npts_min, npts_max, choose_random)`,
which returns `None` ("insufficient points or all weights zero") or a
sub-block. -/
structure Transform where
  nnz_per_row : ℕ
  rows_per_ptmatch : ℕ
  CSR_from_tilepair : PtMatch → ℕ → ℕ → ℕ → ℕ → Bool → Option SubBlock

/-- The chunk dictionary built by `calculate_processing_chunk` (lines 32-39):
independent fields, each `None` until the non-empty path fills it. -/
structure Chunk where
  tiles_used : List Bool
  data : Option (List ℚ)
  indices : Option (List ℤ)
  indptr : Option (List ℤ)
  weights : Option (List ℚ)
  nchunks : ℕ
  zlist : List ℤ
deriving DecidableEq, Inhabited

/-- The chunk as initialized at lines 32-39: all-false used mask, all CSR
fields `None`. -/
def emptyChunk (n : ℕ) : Chunk :=
  { tiles_used := List.replicate n false
    data := none
    indices := none
    indptr := none
    weights := none
    nchunks := 0
    zlist := [] }

/-- Numpy fancy-index assignment `buf[off : off + n] = vals` on a contiguous
index range: fails (raises) when the value array does not match the index
range or the range exceeds the buffer. -/
def setRange {α : Type*} (buf : List α) (off : ℕ) (vals : List α) (n : ℕ) :
    Option (List α) :=
  if vals.length = n ∧ off + n ≤ buf.length then
    some (buf.take off ++ vals ++ buf.drop (off + n))
  else none

/-- The mutable loop state of `calculate_processing_chunk`: the
conservatively pre-allocated buffers plus the row counter `nrows`. -/
structure AsmState where
  tiles_used : List Bool
  data : List ℚ
  indices : List ℤ
  indptr : List ℤ
  weights : List ℚ
  nrows : ℕ
deriving DecidableEq

/-- One iteration of the assembly loop (lines 122-153): invoke the transform
model; on `None` skip; otherwise mark both tiles used, splice the
sub-block's values/indices at the current non-zero offset, the scaled
weights at the current row offset, and the re-based local row pointers at
rows `nrows+1 ...`, then advance `nrows` by the sub-block's row count. -/
def process_match (tf : Transform) (ma : MatrixAssembly) (fac : ℚ)
    (st : AsmState) (m : PtMatch) (p q : ℕ) : Option AsmState :=
  match tf.CSR_from_tilepair m p q ma.npts_min ma.npts_max ma.choose_random with
  | none => some st
  | some b => do
    let nd := b.npts * tf.rows_per_ptmatch * tf.nnz_per_row
    let nr := b.npts * tf.rows_per_ptmatch
    let data ← setRange st.data (st.nrows * tf.nnz_per_row) b.d nd
    let indices ← setRange st.indices (st.nrows * tf.nnz_per_row) b.ind nd
    let base ← st.indptr.get? st.nrows
    let weights ← setRange st.weights st.nrows (b.wts.map (· * fac)) nr
    let indptr ← setRange st.indptr (st.nrows + 1) (b.iptr.map (· + base)) nr
    some { tiles_used := (st.tiles_used.set p true).set q true
           data := data
           indices := indices
           indptr := indptr
           weights := weights
           nrows := st.nrows + b.wts.length }

/-- The surviving matches paired with their resolved column-block indices
`(matches[k], pinds[k], qinds[k])` (lines 87-88 and the loop at 122). -/
def keptTriples (tile_ids : List ℕ) (ms : List PtMatch) :
    List (PtMatch × ℕ × ℕ) :=
  (filter_instack tile_ids ms).zip
    (((filter_instack tile_ids ms).map (fun m => resolve_ind tile_ids m.pId)).zip
      ((filter_instack tile_ids ms).map (fun m => resolve_ind tile_ids m.qId)))

/-- Embedding of `calculate_processing_chunk` (lines 24-171), with the
external match fetch replaced by the fetched list `ms` and the transform
model passed in as `tf`.  `none` models an uncaught exception (bad explicit
weight lookup, or a numpy shape/index error during splicing). -/
def calculate_processing_chunk (tf : Transform) (ma : MatrixAssembly)
    (pair : Pair) (tile_ids : List ℕ) (ms : List PtMatch) : Option Chunk :=
  if ms.length = 0 then some (emptyChunk tile_ids.length)
  else if (filter_instack tile_ids ms).length = 0 then
    some (emptyChunk tile_ids.length)
  else do
    let nmatches := (filter_instack tile_ids ms).length
    let nd := tf.nnz_per_row * tf.rows_per_ptmatch * ma.npts_max * nmatches
    let ni := tf.rows_per_ptmatch * ma.npts_max * nmatches
    let fac ← tilepair_weight pair.z1 pair.z2 ma
    let st0 : AsmState :=
      { tiles_used := List.replicate tile_ids.length false
        data := List.replicate nd 0
        indices := List.replicate nd 0
        indptr := List.replicate (ni + 1) 0
        weights := List.replicate ni 0
        nrows := 0 }
    let stF ← (keptTriples tile_ids ms).foldlM
      (fun st t => process_match tf ma fac st t.1 t.2.1 t.2.2) st0
    some { tiles_used := stF.tiles_used
           data := some (stF.data.take (stF.nrows * tf.nnz_per_row))
           indices := some (stF.indices.take (stF.nrows * tf.nnz_per_row))
           indptr := some (stF.indptr.take (stF.nrows + 1))
           weights := some (stF.weights.take stF.nrows)
           nchunks := 0
           zlist := [pair.z1, pair.z2] }

/-- The sub-blocks the loop actually splices in: those for which the
transform model did not return `None`. -/
def acceptedBlocks (tf : Transform) (ma : MatrixAssembly)
    (l : List (PtMatch × ℕ × ℕ)) : List SubBlock :=
  l.filterMap
    (fun t => tf.CSR_from_tilepair t.1 t.2.1 t.2.2 ma.npts_min ma.npts_max
      ma.choose_random)

/-- Total number of matrix rows contributed by a list of sub-blocks. -/
def rowsOf (bs : List SubBlock) : ℕ :=
  (bs.map (fun b => b.wts.length)).sum

/-- Concatenated value entries of a list of sub-blocks. -/
def dataOf (bs : List SubBlock) : List ℚ :=
  (bs.map (fun b => b.d)).flatten

/-- Concatenated column-index entries of a list of sub-blocks. -/
def indicesOf (bs : List SubBlock) : List ℤ :=
  (bs.map (fun b => b.ind)).flatten

/-- Concatenated row weights of a list of sub-blocks, each scaled by the
pair-level weight factor. -/
def weightsOf (fac : ℚ) (bs : List SubBlock) : List ℚ :=
  (bs.map (fun b => b.wts.map (· * fac))).flatten

/-- The row-pointer array of a CSR matrix with `rows` rows of exactly `nnz`
non-zeros each: `[0, nnz, 2*nnz, ..., rows*nnz]`. -/
def indptrUpTo (nnz rows : ℕ) : List ℤ :=
  (List.range (rows + 1)).map (fun r : ℕ => (r : ℤ) * (nnz : ℤ))

/-- Consistency of a sub-block (the precondition of C1): array lengths agree
with `npts`, `rows_per_ptmatch` and `nnz_per_row`, and the local row
pointers record exactly `nnz_per_row` non-zeros per row. -/
def blockConsistent (tf : Transform) (b : SubBlock) : Prop :=
  b.d.length = b.npts * tf.rows_per_ptmatch * tf.nnz_per_row ∧
  b.ind.length = b.npts * tf.rows_per_ptmatch * tf.nnz_per_row ∧
  b.wts.length = b.npts * tf.rows_per_ptmatch ∧
  b.iptr = (List.range (b.npts * tf.rows_per_ptmatch)).map
    (fun j : ℕ => ((j : ℤ) + 1) * (tf.nnz_per_row : ℤ))

/-- The sub-blocks accepted while assembling a chunk from the matches `ms`
that survive the tile-set filter. -/
def chunkBlocks (tf : Transform) (ma : MatrixAssembly) (tile_ids : List ℕ)
    (ms : List PtMatch) : List SubBlock :=
  acceptedBlocks tf ma (keptTriples tile_ids ms)

/-- Concrete one-row sub-block used by witnesses. -/
def sbW : SubBlock :=
  { d := [3, 4], ind := [0, 2], iptr := [2], wts := [1], npts := 1 }

/-- Concrete transform for witnesses: 2 non-zeros per row, 1 row per point
match, constant one-row sub-block. -/
def tfW : Transform :=
  { nnz_per_row := 2
    rows_per_ptmatch := 1
    CSR_from_tilepair := fun _ _ _ _ _ _ => some sbW }

/-- Concrete assembly configuration for witnesses: no explicit table,
montage and cross weights 1, at most one point per match. -/
def maW : MatrixAssembly :=
  { explicit_weight_by_depth := none
    depth := []
    montage_pt_weight := 1
    cross_pt_weight := 1
    inverse_dz := false
    npts_min := 0
    npts_max := 1
    choose_random := false }

/-- The chunk produced by the C1 witness run: one match between tiles 1 and
2, one row, two non-zeros. -/
def cW : Chunk :=
  { tiles_used := [true, true]
    data := some [3, 4]
    indices := some [0, 2]
    indptr := some [0, 2]
    weights := some [1 * 1]
    nchunks := 0
    zlist := [0, 0] }

/-- Loop invariant of the assembly loop: the row counter equals the rows of
the accepted sub-blocks so far, the filled prefixes of the buffers hold
exactly their concatenated entries, and the filled row-pointer prefix is
`[0, nnz, ..., nrows*nnz]`. -/
def AsmInv (tf : Transform) (fac : ℚ) (bs : List SubBlock) (st : AsmState) :
    Prop :=
  st.nrows = rowsOf bs ∧
  (dataOf bs).length = st.nrows * tf.nnz_per_row ∧
  st.data.take (st.nrows * tf.nnz_per_row) = dataOf bs ∧
  (indicesOf bs).length = st.nrows * tf.nnz_per_row ∧
  st.indices.take (st.nrows * tf.nnz_per_row) = indicesOf bs ∧
  (weightsOf fac bs).length = st.nrows ∧
  st.weights.take st.nrows = weightsOf fac bs ∧
  st.indptr.take (st.nrows + 1) = indptrUpTo tf.nnz_per_row st.nrows

/-- The merged-array dictionary built by `concatenate_results`. -/
structure MergedCSR where
  data : List ℚ
  weights : List ℚ
  indices : List ℤ
  zlist : List ℤ
  indptr : List ℤ
deriving DecidableEq

/-- Embedding of `np.cumsum`: running partial sums. -/
def np_cumsum : List ℤ → List ℤ
  | [] => []
  | x :: xs => x :: (np_cumsum xs).map (fun y => x + y)

/-- Index found by the `while` loop of `concatenate_chunks` (lines 469-473):
the first chunk with non-`None` data, stopping at the last position when
every chunk is empty. -/
def firstDataIdx (chunks : List Chunk) : ℕ :=
  min (chunks.findIdx (fun c => c.data.isSome)) (chunks.length - 1)

/-- One iteration of the `for` loop of `concatenate_chunks` (lines 475-481):
a non-empty chunk's data/weights/indices/zlist arrays are appended to the
accumulator dictionary, and its row-pointer entries after the first are
appended offset by the accumulator's final row-pointer value `lastptr`;
empty chunks are skipped. -/
def chunkStep (c0 c : Chunk) : Chunk :=
  if c.data.isSome then
    { c0 with
      data := some (c0.data.getD [] ++ c.data.getD [])
      weights := some (c0.weights.getD [] ++ c.weights.getD [])
      indices := some (c0.indices.getD [] ++ c.indices.getD [])
      zlist := c0.zlist ++ c.zlist
      indptr := some ((c0.indptr.getD []) ++
        ((c.indptr.getD []).tail.map
          (fun x => x + (c0.indptr.getD []).getLastD 0))) }
  else c0

/-- Embedding of `EMaligner.concatenate_chunks` (lines 468-482).  Returns
the accumulated chunk *and* the post-call state of the input list: the
Python code accumulates by assigning into the dict `chunks[i]` through the
alias `c0 = chunks[i]`, so the first non-empty chunk is mutated in place
while every other chunk is untouched. -/
def concatenate_chunks (chunks : List Chunk) : Chunk × List Chunk :=
  let i := firstDataIdx chunks
  let c0 := (chunks.drop (i + 1)).foldl chunkStep (chunks.getD i default)
  (c0, chunks.set i c0)

/-- The comprehension
`[j if i == 0 else j[1:] + indptr_cumends[i-1] for i, j in enumerate(...)]`
restricted to the entries with `i ≥ 1` (`k` is `i - 1`): each subsequent
row-pointer array contributes its entries after the first, offset by the
cumulative end `indptr_cumends[i-1]`. -/
def rebaseTail (cumends : List ℤ) : ℕ → List (List ℤ) → List ℤ
  | _, [] => []
  | k, j :: rest =>
    j.tail.map (fun x => x + cumends.getD k 0) ++ rebaseTail cumends (k + 1) rest

/-- Embedding of `EMaligner.concatenate_results` (lines 485-509): a fresh
dictionary concatenating the arrays of all chunks with non-`None` data;
`none` models the `np.concatenate` failure when every chunk is empty. -/
def concatenate_results (results : List Chunk) : Option MergedCSR :=
  let ne := results.filter (fun c => c.data.isSome)
  if ne.isEmpty then none
  else
    some
      { data := (ne.map (fun c => c.data.getD [])).flatten
        weights := (ne.map (fun c => c.weights.getD [])).flatten
        indices := (ne.map (fun c => c.indices.getD [])).flatten
        zlist := (ne.map (fun c => c.zlist)).flatten
        indptr :=
          match ne.map (fun c => c.indptr.getD []) with
          | [] => []
          | ip0 :: rest =>
            ip0 ++ rebaseTail
              (np_cumsum ((ip0 :: rest).map (fun j => j.getLastD 0))) 0 rest }

/-- The row-pointer merge exactly as the spec phrases it: seed with the
first array; for each subsequent array append its entries after the leading
one, offset by the accumulator's current final row-pointer value. -/
def mergeIndptrAcc : List (List ℤ) → List ℤ
  | [] => []
  | ip0 :: rest =>
    rest.foldl (fun acc ip => acc ++ ip.tail.map (fun x => x + acc.getLastD 0))
      ip0

/-- Rebasing a sequence of row-pointer arrays against a running offset that
advances by each array's final entry. -/
def rebaseFrom (off : ℤ) : List (List ℤ) → List ℤ
  | [] => []
  | ip :: rest =>
    ip.tail.map (fun x => x + off) ++ rebaseFrom (off + ip.getLastD 0) rest

/-- The used-tile mask union of `create_CSR_A` (lines 534-537): start from
the first task's mask and OR in each later task's mask element-wise. -/
def union_tiles_used (results : List Chunk) : List Bool :=
  match results with
  | [] => []
  | c :: rest =>
    rest.foldl (fun acc r => List.zipWith (· || ·) acc r.tiles_used)
      c.tiles_used

/-- The per-degree-of-freedom column mask of `create_CSR_A` (lines 559-561):
`np.concatenate([np.repeat(tiles_used[i], DOF_per_tile_i) for i ...])`. -/
def slice_ind (tiles_used : List Bool) (dofs : List ℕ) : List Bool :=
  ((tiles_used.zip dofs).map (fun t => List.replicate t.2 t.1)).flatten

/-- Boolean-mask column selection `row[mask]` for one dense matrix row. -/
def selectCols (row : List ℚ) (mask : List Bool) : List ℚ :=
  ((row.zip mask).filter (fun p => p.2)).map (fun p => p.1)

/-- Boolean-mask column slicing `A[:, slice_ind]` (line 562) on a dense
row-list view of the matrix. -/
def sliceColumns (A : List (List ℚ)) (mask : List Bool) : List (List ℚ) :=
  A.map (fun row => selectCols row mask)

/-- A matrix row split into per-tile segments of the given DOF widths. -/
def splitByDofs : List ℚ → List ℕ → List (List ℚ)
  | _, [] => []
  | row, d :: ds => row.take d :: splitByDofs (row.drop d) ds

/-- Total degrees of freedom of the used tiles. -/
def usedDofSum (tiles_used : List Bool) (dofs : List ℕ) : ℕ :=
  (((tiles_used.zip dofs).filter (fun t => t.1)).map (fun t => t.2)).sum

/-- The events of one `assemble_and_solve` call, external effects
abstracted. -/
inductive RunEvent
  | ingestFromFile
  | assembleFromFile
  | assembleFromDB
  | profileAbort
  | solveOrNot
  | writeStack
deriving DecidableEq

/-- Control-flow skeleton of `EMaligner.assemble_and_solve` (lines 246-307):
the ordered events of one call and whether it ended by raising.  The only
raise modelled is the deliberate `profile_data_load` abort at lines 277-279,
which fires after assembly and before `solve_or_not`. -/
def assemble_and_solve_events (ingest_from_file assemble_from_file : String)
    (profile_data_load : Bool) (output_mode : String) :
    List RunEvent × Bool :=
  if ingest_from_file ≠ "" then
    ([RunEvent.ingestFromFile] ++
      (if output_mode = "stack" then [RunEvent.writeStack] else []), false)
  else
    let aevs := if assemble_from_file ≠ "" then [RunEvent.assembleFromFile]
      else [RunEvent.assembleFromDB]
    if profile_data_load then (aevs ++ [RunEvent.profileAbort], true)
    else
      (aevs ++ [RunEvent.solveOrNot] ++
        (if output_mode = "stack" then [RunEvent.writeStack] else []), false)

/-- Concrete non-empty chunk (tile 0 of 2 used, one row) for the merge
witnesses. -/
def cA : Chunk :=
  { tiles_used := [true, false]
    data := some [1]
    indices := some [0]
    indptr := some [0, 1]
    weights := some [1]
    nchunks := 0
    zlist := [0, 0] }

/-- Concrete non-empty chunk (tile 1 of 2 used, one row) for the merge
witnesses. -/
def cB : Chunk :=
  { tiles_used := [false, true]
    data := some [2]
    indices := some [1]
    indptr := some [0, 1]
    weights := some [1]
    nchunks := 0
    zlist := [0, 0] }

end EMaligner

/-- C3 (counterexample): with the explicit table `[0 ↦ 1.0, 1 ↦ 0.5]`, montage
weight 2.0, cross weight 1.0 and inverse-dz off, a same-section pair
(z1 = z2 = 0) gets weight 1.0 from the table, not 1.0 × 2.0 = 2.0 as the
claim states: the explicit-table path never multiplies by the montage
weight. -/
theorem C3_counterexample :
    EMaligner.tilepair_weight 0 0 EMaligner.maC3 = some 1 ∧
    EMaligner.tilepair_weight 0 0 EMaligner.maC3 ≠ some 2 := by
  constructor <;> decide

/-- C3 (amended): with an explicit weight-by-depth table mapping depth 0 to
1.0 and depth 1 to 0.5, and any montage weight, cross weight and
inverse-distance setting whatsoever, `tilepair_weight` returns 1.0 for a
same-section pair (z1 = z2) and 0.5 for a depth-1 cross pair
(|z1 − z2| = 1); the explicit table fully overrides the montage/cross
constants. -/
theorem C3_explicit_table_values (mw cw : ℚ) (inv : Bool) (z1 z2 : ℤ)
    (ma : EMaligner.MatrixAssembly)
    (hma : ma.explicit_weight_by_depth = some [1, 1/2] ∧ ma.depth = [0, 1] ∧
      ma.montage_pt_weight = mw ∧ ma.cross_pt_weight = cw ∧ ma.inverse_dz = inv) :
    (z1 = z2 → EMaligner.tilepair_weight z1 z2 ma = some 1) ∧
    ((z1 - z2).natAbs = 1 → EMaligner.tilepair_weight z1 z2 ma = some (1/2)) := by
  obtain ⟨h1, h2, -, -, -⟩ := hma
  constructor
  · intro hz
    subst hz
    unfold EMaligner.tilepair_weight
    rw [h1, h2]
    simp only [sub_self, Int.natAbs_zero]
    rfl
  · intro hz
    unfold EMaligner.tilepair_weight
    rw [h1, h2, hz]
    rfl

/-- C3 witness: the amended statement evaluated on the concrete configuration
of spec §8 item 5, at a same-section pair (0,0) and a depth-1 pair (0,1). -/
theorem C3_explicit_table_values_witness :
    ((0 : ℤ) = 0 → EMaligner.tilepair_weight 0 0 EMaligner.maC3 = some 1) ∧
    (((0 : ℤ) - 1).natAbs = 1 → EMaligner.tilepair_weight 0 1 EMaligner.maC3 = some (1/2)) := by
  refine ⟨(C3_explicit_table_values 2 1 false 0 0 EMaligner.maC3
      ⟨rfl, rfl, rfl, rfl, rfl⟩).1,
    (C3_explicit_table_values 2 1 false 0 1 EMaligner.maC3
      ⟨rfl, rfl, rfl, rfl, rfl⟩).2⟩

/-- C4: when `explicit_weight_by_depth` is not configured, `tilepair_weight`
returns the montage weight when z1 = z2, and otherwise the cross weight,
which is divided by (|z2 − z1| + 1) exactly when inverse-distance weighting
is enabled. -/
theorem C4_implicit_weight_policy (z1 z2 : ℤ) (ma : EMaligner.MatrixAssembly)
    (h : ma.explicit_weight_by_depth = none) :
    (z1 = z2 → EMaligner.tilepair_weight z1 z2 ma = some ma.montage_pt_weight) ∧
    (z1 ≠ z2 → ma.inverse_dz = true →
      EMaligner.tilepair_weight z1 z2 ma =
        some (ma.cross_pt_weight / (((z2 - z1).natAbs : ℚ) + 1))) ∧
    (z1 ≠ z2 → ma.inverse_dz = false →
      EMaligner.tilepair_weight z1 z2 ma = some ma.cross_pt_weight) := by
  unfold EMaligner.tilepair_weight
  rw [h]
  refine ⟨fun hz => by simp [hz], fun hz hinv => ?_, fun hz hinv => ?_⟩
  · simp [hz, hinv]
  · simp [hz, hinv]

/-- C4 witness: the implicit weight policy evaluated on a concrete
configuration (montage weight 3, cross weight 5, inverse-dz on), at the
same-section pair (2,2) and the cross pair (2,4). -/
theorem C4_implicit_weight_policy_witness :
    (EMaligner.tilepair_weight 2 2
      ⟨none, [], 3, 5, true, 0, 0, false⟩ = some 3) ∧
    (EMaligner.tilepair_weight 2 4
      ⟨none, [], 3, 5, true, 0, 0, false⟩ = some (5 / 3)) := by
  have h1 := (C4_implicit_weight_policy 2 2 ⟨none, [], 3, 5, true, 0, 0, false⟩ rfl).1 rfl
  have h2 := (C4_implicit_weight_policy 2 4 ⟨none, [], 3, 5, true, 0, 0, false⟩ rfl).2.1
    (by decide) rfl
  refine ⟨h1, ?_⟩
  rw [h2]
  norm_num

/-- C10: with an explicit weight-by-depth table configured, the weight is
looked up at the position of |z1 − z2| within the depth list (not at
|z1 − z2| itself), and when |z1 − z2| does not occur in the depth list the
lookup fails (`list.index` raises) instead of returning a weight. -/
theorem C10_depth_position_lookup (z1 z2 : ℤ) (ma : EMaligner.MatrixAssembly)
    (tbl : List ℚ) (h : ma.explicit_weight_by_depth = some tbl) :
    ((z1 - z2).natAbs ∉ ma.depth → EMaligner.tilepair_weight z1 z2 ma = none) ∧
    (∀ i, List.indexOf? (z1 - z2).natAbs ma.depth = some i →
      EMaligner.tilepair_weight z1 z2 ma = tbl.get? i) := by
  constructor
  · intro hmem
    have hidx : List.indexOf? (z1 - z2).natAbs ma.depth = none := by
      rw [List.indexOf?_eq_none_iff]
      intro x hx
      simp only [beq_iff_eq]
      exact fun hxa => hmem (hxa ▸ hx)
    unfold EMaligner.tilepair_weight
    rw [h, hidx]
  · intro i hi
    unfold EMaligner.tilepair_weight
    rw [h, hi]

/-- C10 witness: depth list `[2, 5]` with table `[10, 20]`: the pair (0,5)
has distance 5 sitting at position 1 of the depth list, so the weight is
`tbl[1] = 20` (position lookup, not `tbl[5]`), while the pair (0,3) has
distance 3, absent from the depth list, so the lookup fails. -/
theorem C10_depth_position_lookup_witness :
    (EMaligner.tilepair_weight 0 3
      ⟨some [10, 20], [2, 5], 0, 0, false, 0, 0, false⟩ = none) ∧
    (EMaligner.tilepair_weight 0 5
      ⟨some [10, 20], [2, 5], 0, 0, false, 0, 0, false⟩ = some 20) := by
  constructor
  · exact (C10_depth_position_lookup 0 3 _ [10, 20] rfl).1 (by decide)
  · exact (C10_depth_position_lookup 0 5 _ [10, 20] rfl).2 1 (by decide)

namespace EMaligner

lemma map_getD_range (l : List ℕ) :
    (List.range l.length).map (fun i => l.getD i 0) = l := by
  apply List.ext_getElem
  · simp
  · intro n h1 h2
    simp only [List.getElem_map, List.getElem_range]
    exact List.getD_eq_getElem l 0 h2

lemma np_argsort_perm (xs : List ℕ) :
    (np_argsort xs).Perm (List.range xs.length) :=
  List.perm_insertionSort _ _

lemma sorted_view_perm (xs : List ℕ) :
    ((np_argsort xs).map (fun i => xs.getD i 0)).Perm xs := by
  have h := (np_argsort_perm xs).map (fun i => xs.getD i 0)
  rwa [map_getD_range] at h

lemma sorted_view_sorted (xs : List ℕ) :
    List.Sorted (· ≤ ·) ((np_argsort xs).map (fun i => xs.getD i 0)) := by
  haveI : IsTotal ℕ (argsortRel xs) := ⟨fun i j => by unfold argsortRel; omega⟩
  haveI : IsTrans ℕ (argsortRel xs) := ⟨fun a b c hab hbc => by
    unfold argsortRel at hab hbc ⊢; omega⟩
  have hs : List.Sorted (argsortRel xs) (np_argsort xs) :=
    List.sorted_insertionSort _ _
  exact List.Pairwise.map _ (fun a b hab => by unfold argsortRel at hab; omega) hs

lemma sorted_getD_takeWhile (s : List ℕ) (hs : List.Sorted (· ≤ ·) s)
    (v : ℕ) (hv : v ∈ s) :
    s.getD (s.takeWhile (fun x => x < v)).length 0 = v := by
  induction s with
  | nil => cases hv
  | cons a t ih =>
    rcases List.sorted_cons.mp hs with ⟨hhead, htail⟩
    by_cases hav : a < v
    · have hvt : v ∈ t := by
        rcases List.mem_cons.mp hv with rfl | hvt
        · omega
        · exact hvt
      simpa [List.takeWhile_cons, hav] using ih htail hvt
    · rcases List.mem_cons.mp hv with rfl | hvt
      · simp [List.takeWhile_cons, hav]
      · have h1 : a ≤ v := hhead v hvt
        have h2 : a = v := by omega
        simp [List.takeWhile_cons, hav, h2]

lemma takeWhile_lt_length (s : List ℕ) (v : ℕ) (hv : v ∈ s) :
    (s.takeWhile (fun x => x < v)).length < s.length := by
  induction s with
  | nil => cases hv
  | cons a t ih =>
    by_cases hav : a < v
    · have hvt : v ∈ t := by
        rcases List.mem_cons.mp hv with rfl | hvt
        · omega
        · exact hvt
      simpa [List.takeWhile_cons, hav] using Nat.succ_lt_succ (ih hvt)
    · simp [List.takeWhile_cons, hav]

lemma resolve_ind_getD (tile_ids : List ℕ) (v : ℕ) (hv : v ∈ tile_ids) :
    tile_ids.getD (resolve_ind tile_ids v) 0 = v := by
  have hperm := sorted_view_perm tile_ids
  have hsort := sorted_view_sorted tile_ids
  set sorter := np_argsort tile_ids with hsorterdef
  set sorted := sorter.map (fun i => tile_ids.getD i 0) with hsorteddef
  have hv' : v ∈ sorted := hperm.mem_iff.mpr hv
  have hlt : searchsorted_left sorted v < sorted.length := by
    unfold searchsorted_left
    exact takeWhile_lt_length sorted v hv'
  have hlt' : searchsorted_left sorted v < sorter.length := by
    simpa [hsorteddef] using hlt
  have hgd := sorted_getD_takeWhile sorted hsort v hv'
  have hview : sorted.getD (searchsorted_left sorted v) 0 =
      tile_ids.getD (sorter.getD (searchsorted_left sorted v) 0) 0 := by
    rw [List.getD_eq_getElem sorted 0 hlt, List.getD_eq_getElem sorter 0 hlt']
    simp only [hsorteddef, List.getElem_map]
  unfold resolve_ind
  rw [← hsorterdef, ← hsorteddef, ← hview]
  unfold searchsorted_left at hgd ⊢
  exact hgd

end EMaligner

/-- C6: in `calculate_processing_chunk`, a fetched match survives the
defensive filter exactly when both its source and target tile ids occur in
the global tile-id array, and for every surviving match the
argsort/searchsorted resolution returns positions at which the tile-id
array holds precisely the match's source and target ids (precondition: the
tile-id array has no duplicates). -/
theorem C6_filter_and_binary_search (tile_ids : List ℕ)
    (ms : List EMaligner.PtMatch) (hnd : tile_ids.Nodup) :
    (∀ m, m ∈ EMaligner.filter_instack tile_ids ms ↔
       m ∈ ms ∧ m.pId ∈ tile_ids ∧ m.qId ∈ tile_ids) ∧
    (∀ m ∈ EMaligner.filter_instack tile_ids ms,
       tile_ids.getD (EMaligner.resolve_ind tile_ids m.pId) 0 = m.pId ∧
       tile_ids.getD (EMaligner.resolve_ind tile_ids m.qId) 0 = m.qId) := by
  have hmem : ∀ m, m ∈ EMaligner.filter_instack tile_ids ms ↔
      m ∈ ms ∧ m.pId ∈ tile_ids ∧ m.qId ∈ tile_ids := by
    intro m
    unfold EMaligner.filter_instack
    rw [List.mem_filter]
    simp [List.elem_iff, and_assoc]
  refine ⟨hmem, fun m hm => ?_⟩
  obtain ⟨-, hp, hq⟩ := (hmem m).mp hm
  exact ⟨EMaligner.resolve_ind_getD tile_ids m.pId hp,
    EMaligner.resolve_ind_getD tile_ids m.qId hq⟩

/-- C6 witness: tile ids `[30, 10, 20]` (unsorted, duplicate-free) and two
matches; the match `(10, 20)` survives the filter and both its ids resolve
back to themselves, while the match `(10, 70)` is discarded because `70` is
not in the tile set. -/
theorem C6_filter_and_binary_search_witness :
    ((⟨10, 20, 0⟩ : EMaligner.PtMatch) ∈
       EMaligner.filter_instack [30, 10, 20] [⟨10, 20, 0⟩, ⟨10, 70, 0⟩]) ∧
    ((⟨10, 70, 0⟩ : EMaligner.PtMatch) ∉
       EMaligner.filter_instack [30, 10, 20] [⟨10, 20, 0⟩, ⟨10, 70, 0⟩]) ∧
    [30, 10, 20].getD (EMaligner.resolve_ind [30, 10, 20] 10) 0 = 10 ∧
    [30, 10, 20].getD (EMaligner.resolve_ind [30, 10, 20] 20) 0 = 20 := by
  have h := C6_filter_and_binary_search [30, 10, 20] [⟨10, 20, 0⟩, ⟨10, 70, 0⟩]
    (by decide)
  refine ⟨(h.1 ⟨10, 20, 0⟩).mpr (by decide), ?_, ?_, ?_⟩
  · intro hc
    exact absurd ((h.1 ⟨10, 70, 0⟩).mp hc).2.2 (by decide)
  · exact (h.2 ⟨10, 20, 0⟩ ((h.1 ⟨10, 20, 0⟩).mpr (by decide))).1
  · exact (h.2 ⟨10, 20, 0⟩ ((h.1 ⟨10, 20, 0⟩).mpr (by decide))).2

namespace EMaligner

lemma setRange_eq_some {α : Type*} {buf vals out : List α} {off n : ℕ}
    (h : setRange buf off vals n = some out) :
    vals.length = n ∧ off + n ≤ buf.length ∧
    out = buf.take off ++ vals ++ buf.drop (off + n) := by
  unfold setRange at h
  by_cases hcond : vals.length = n ∧ off + n ≤ buf.length
  · rw [if_pos hcond] at h
    exact ⟨hcond.1, hcond.2, (Option.some_inj.mp h).symm⟩
  · rw [if_neg hcond] at h
    cases h

lemma take_after_setRange {α : Type*} {buf vals out : List α} {off n : ℕ}
    (h : setRange buf off vals n = some out) :
    out.take (off + n) = buf.take off ++ vals := by
  obtain ⟨hlen, hle, rfl⟩ := setRange_eq_some h
  apply List.take_left'
  simp only [List.length_append, List.length_take]
  omega

lemma dataOf_concat (bs : List SubBlock) (b : SubBlock) :
    dataOf (bs ++ [b]) = dataOf bs ++ b.d := by
  unfold dataOf
  simp

lemma indicesOf_concat (bs : List SubBlock) (b : SubBlock) :
    indicesOf (bs ++ [b]) = indicesOf bs ++ b.ind := by
  unfold indicesOf
  simp

lemma weightsOf_concat (fac : ℚ) (bs : List SubBlock) (b : SubBlock) :
    weightsOf fac (bs ++ [b]) = weightsOf fac bs ++ b.wts.map (· * fac) := by
  unfold weightsOf
  simp

lemma rowsOf_concat (bs : List SubBlock) (b : SubBlock) :
    rowsOf (bs ++ [b]) = rowsOf bs + b.wts.length := by
  unfold rowsOf
  simp

lemma indptrUpTo_length (nnz r : ℕ) : (indptrUpTo nnz r).length = r + 1 := by
  unfold indptrUpTo
  rw [List.length_map, List.length_range]

lemma indptrUpTo_append (nnz r k : ℕ) :
    indptrUpTo nnz (r + k) =
      indptrUpTo nnz r ++
        (List.range k).map
          (fun j : ℕ => ((j : ℤ) + 1) * (nnz : ℤ) + (r : ℤ) * (nnz : ℤ)) := by
  unfold indptrUpTo
  rw [show r + k + 1 = (r + 1) + k by omega, List.range_add, List.map_append,
    List.map_map]
  congr 1
  apply List.map_congr_left
  intro j hj
  simp only [Function.comp_apply]
  push_cast
  ring

lemma indptrUpTo_get (nnz r i : ℕ) (h : i ≤ r) :
    (indptrUpTo nnz r).get? i = some ((i : ℤ) * (nnz : ℤ)) := by
  unfold indptrUpTo
  rw [List.get?_eq_getElem?, List.getElem?_map, List.getElem?_range (by omega)]
  rfl

lemma indptrUpTo_head (nnz r : ℕ) : (indptrUpTo nnz r).head? = some 0 := by
  unfold indptrUpTo
  rw [List.range_succ_eq_map]
  simp

lemma indptrUpTo_getLast (nnz r : ℕ) :
    (indptrUpTo nnz r).getLast? = some ((r : ℤ) * (nnz : ℤ)) := by
  unfold indptrUpTo
  rw [List.range_succ, List.map_append]
  simp [List.getLast?_concat]

lemma indptrUpTo_chain (nnz r : ℕ) :
    List.Chain' (· ≤ ·) (indptrUpTo nnz r) := by
  unfold indptrUpTo
  apply List.Pairwise.chain'
  have hp := List.pairwise_lt_range (r + 1)
  refine List.Pairwise.map _ (fun a b hab => ?_) hp
  have hc : (a : ℤ) ≤ (b : ℤ) := by exact_mod_cast hab.le
  exact mul_le_mul_of_nonneg_right hc (by positivity)

end EMaligner

namespace EMaligner

lemma process_match_inv (tf : Transform) (ma : MatrixAssembly) (fac : ℚ)
    (bs : List SubBlock) (st st' : AsmState) (m : PtMatch) (p q : ℕ)
    (hcons : ∀ b, tf.CSR_from_tilepair m p q ma.npts_min ma.npts_max
      ma.choose_random = some b → blockConsistent tf b)
    (hinv : AsmInv tf fac bs st)
    (h : process_match tf ma fac st m p q = some st') :
    AsmInv tf fac
      (bs ++ (tf.CSR_from_tilepair m p q ma.npts_min ma.npts_max
        ma.choose_random).toList) st' := by
  obtain ⟨h1, h2, h3, h4, h5, h6, h7, h8⟩ := hinv
  unfold process_match at h
  cases hb : tf.CSR_from_tilepair m p q ma.npts_min ma.npts_max
      ma.choose_random with
  | none =>
    rw [hb] at h
    injection h with h
    subst h
    rw [show (none : Option SubBlock).toList = [] from rfl, List.append_nil]
    exact ⟨h1, h2, h3, h4, h5, h6, h7, h8⟩
  | some b =>
    rw [hb] at h
    obtain ⟨hc1, hc2, hc3, hc4⟩ := hcons b hb
    simp only [Option.bind_eq_bind, Option.bind_eq_some] at h
    obtain ⟨data, hsd, indices, hsi, base, hsb, weights, hsw, indptr, hsp,
      hfin⟩ := h
    injection hfin with hfin
    subst hfin
    rw [show (some b).toList = [b] from rfl]
    have hnr : b.wts.length = b.npts * tf.rows_per_ptmatch := by
      have := (setRange_eq_some hsw).1
      simpa using this
    have hbase' : base = (st.nrows : ℤ) * (tf.nnz_per_row : ℤ) := by
      have htk : (st.indptr.take (st.nrows + 1)).get? st.nrows =
          st.indptr.get? st.nrows := List.get?_take (by omega)
      rw [h8, indptrUpTo_get tf.nnz_per_row st.nrows st.nrows le_rfl] at htk
      have := htk.trans hsb
      exact (Option.some_inj.mp this).symm
    have e1 : (st.nrows + b.wts.length) * tf.nnz_per_row
        = st.nrows * tf.nnz_per_row
          + b.npts * tf.rows_per_ptmatch * tf.nnz_per_row := by
      rw [hnr]; ring
    unfold AsmInv
    refine ⟨?_, ?_, ?_, ?_, ?_, ?_, ?_, ?_⟩
    · dsimp only
      rw [rowsOf_concat, ← h1]
    · dsimp only
      rw [dataOf_concat, List.length_append, h2, hc1, e1]
    · dsimp only
      rw [e1, take_after_setRange hsd, h3, dataOf_concat]
    · dsimp only
      rw [indicesOf_concat, List.length_append, h4, hc2, e1]
    · dsimp only
      rw [e1, take_after_setRange hsi, h5, indicesOf_concat]
    · dsimp only
      rw [weightsOf_concat, List.length_append, h6, List.length_map]
    · dsimp only
      rw [show st.nrows + b.wts.length = st.nrows + b.npts * tf.rows_per_ptmatch
        from by rw [hnr], take_after_setRange hsw, h7, weightsOf_concat]
    · dsimp only
      have e3 : st.nrows + b.wts.length + 1 =
          (st.nrows + 1) + b.npts * tf.rows_per_ptmatch := by
        rw [hnr]; ring
      rw [e3, take_after_setRange hsp, h8, hnr, indptrUpTo_append]
      congr 1
      rw [hc4, List.map_map]
      apply List.map_congr_left
      intro j hj
      simp only [Function.comp_apply]
      rw [hbase']

lemma foldlM_process_inv (tf : Transform) (ma : MatrixAssembly) (fac : ℚ)
    (hcons : ∀ m p q b, tf.CSR_from_tilepair m p q ma.npts_min ma.npts_max
      ma.choose_random = some b → blockConsistent tf b)
    (l : List (PtMatch × ℕ × ℕ)) (st st' : AsmState) (bs : List SubBlock)
    (hinv : AsmInv tf fac bs st)
    (h : l.foldlM (fun s t => process_match tf ma fac s t.1 t.2.1 t.2.2) st
      = some st') :
    AsmInv tf fac (bs ++ acceptedBlocks tf ma l) st' := by
  induction l generalizing st bs with
  | nil =>
    rw [List.foldlM_nil] at h
    injection h with h
    subst h
    simpa [acceptedBlocks] using hinv
  | cons t rest ih =>
    rw [List.foldlM_cons] at h
    cases hpm : process_match tf ma fac st t.1 t.2.1 t.2.2 with
    | none =>
      rw [hpm] at h
      simp only [Option.bind_eq_bind, Option.none_bind] at h
      cases h
    | some st1 =>
      rw [hpm] at h
      simp only [Option.bind_eq_bind, Option.some_bind] at h
      have hstep := process_match_inv tf ma fac bs st st1 t.1 t.2.1 t.2.2
        (fun b hb => hcons _ _ _ b hb) hinv hpm
      have hrec := ih st1 _ hstep h
      have hacc : acceptedBlocks tf ma (t :: rest) =
          (tf.CSR_from_tilepair t.1 t.2.1 t.2.2 ma.npts_min ma.npts_max
            ma.choose_random).toList ++ acceptedBlocks tf ma rest := by
        unfold acceptedBlocks
        rw [List.filterMap_cons]
        cases tf.CSR_from_tilepair t.1 t.2.1 t.2.2 ma.npts_min ma.npts_max
          ma.choose_random <;> simp
      rw [hacc, ← List.append_assoc]
      exact hrec

end EMaligner

namespace EMaligner

lemma AsmInv_init (tf : Transform) (fac : ℚ) (ntiles nd ni : ℕ) :
    AsmInv tf fac []
      { tiles_used := List.replicate ntiles false
        data := List.replicate nd 0
        indices := List.replicate nd 0
        indptr := List.replicate (ni + 1) 0
        weights := List.replicate ni 0
        nrows := 0 } := by
  unfold AsmInv
  refine ⟨rfl, ?_, ?_, ?_, ?_, ?_, ?_, ?_⟩
  · simp [dataOf]
  · simp [dataOf]
  · simp [indicesOf]
  · simp [indicesOf]
  · simp [weightsOf]
  · simp [weightsOf]
  · have h1 : List.range 1 = [0] := by
      rw [List.range_succ, List.range_zero, List.nil_append]
    have h2 : 1 ⊓ (ni + 1) = 1 := by omega
    rw [List.take_replicate]
    unfold indptrUpTo
    rw [show (0 : ℕ) + 1 = 1 from rfl, h1, h2]
    simp

end EMaligner

/-- C1: every chunk produced by the non-empty path of
`calculate_processing_chunk` (under the precondition that every sub-block
the transform model returns is consistent, with exactly `nnz_per_row`
non-zeros per row) has: row-pointer array of length row-count + 1 starting
at 0, non-decreasing, with last value equal to the value-array length; a
weight array of length row-count; and truncated value/index/weight arrays
containing exactly the spliced-in sub-block entries, with no remaining
zero-padding from the conservative pre-allocation. -/
theorem C1_assembly_chunk_invariants (tf : EMaligner.Transform)
    (ma : EMaligner.MatrixAssembly) (pair : EMaligner.Pair)
    (tile_ids : List ℕ) (ms : List EMaligner.PtMatch) (c : EMaligner.Chunk)
    (hcons : ∀ m p q b, tf.CSR_from_tilepair m p q ma.npts_min ma.npts_max
      ma.choose_random = some b → EMaligner.blockConsistent tf b)
    (hc : EMaligner.calculate_processing_chunk tf ma pair tile_ids ms = some c)
    (hne : c.data ≠ none) :
    ∃ fac ip,
      EMaligner.tilepair_weight pair.z1 pair.z2 ma = some fac ∧
      c.data = some (EMaligner.dataOf
        (EMaligner.chunkBlocks tf ma tile_ids ms)) ∧
      c.indices = some (EMaligner.indicesOf
        (EMaligner.chunkBlocks tf ma tile_ids ms)) ∧
      c.weights = some (EMaligner.weightsOf fac
        (EMaligner.chunkBlocks tf ma tile_ids ms)) ∧
      (EMaligner.weightsOf fac (EMaligner.chunkBlocks tf ma tile_ids ms)).length
        = EMaligner.rowsOf (EMaligner.chunkBlocks tf ma tile_ids ms) ∧
      c.indptr = some ip ∧
      ip.length = EMaligner.rowsOf (EMaligner.chunkBlocks tf ma tile_ids ms) + 1 ∧
      ip.head? = some 0 ∧
      List.Chain' (· ≤ ·) ip ∧
      ip.getLast? = some
        (((EMaligner.dataOf (EMaligner.chunkBlocks tf ma tile_ids ms)).length : ℤ)) := by
  unfold EMaligner.calculate_processing_chunk at hc
  by_cases hms : ms.length = 0
  · rw [if_pos hms] at hc
    injection hc with hc
    subst hc
    exact absurd rfl hne
  · rw [if_neg hms] at hc
    by_cases hflt : (EMaligner.filter_instack tile_ids ms).length = 0
    · rw [if_pos hflt] at hc
      injection hc with hc
      subst hc
      exact absurd rfl hne
    · rw [if_neg hflt] at hc
      simp only [Option.bind_eq_bind, Option.bind_eq_some] at hc
      obtain ⟨fac, hfac, stF, hfold, hfin⟩ := hc
      injection hfin with hfin
      subst hfin
      have hinv := EMaligner.foldlM_process_inv tf ma fac hcons
        (EMaligner.keptTriples tile_ids ms) _ stF []
        (EMaligner.AsmInv_init tf fac tile_ids.length _ _) hfold
      rw [List.nil_append] at hinv
      obtain ⟨h1, h2, h3, h4, h5, h6, h7, h8⟩ := hinv
      have hB : EMaligner.acceptedBlocks tf ma (EMaligner.keptTriples tile_ids ms)
          = EMaligner.chunkBlocks tf ma tile_ids ms := rfl
      rw [hB] at h1 h2 h3 h4 h5 h6 h7
      refine ⟨fac, EMaligner.indptrUpTo tf.nnz_per_row
        (EMaligner.rowsOf (EMaligner.chunkBlocks tf ma tile_ids ms)), hfac,
        ?_, ?_, ?_, ?_, ?_, ?_, ?_, ?_, ?_⟩
      · exact congrArg some h3
      · exact congrArg some h5
      · exact congrArg some h7
      · exact h6.trans h1
      · refine congrArg some (h8.trans ?_)
        rw [h1]
      · rw [EMaligner.indptrUpTo_length]
      · exact EMaligner.indptrUpTo_head _ _
      · exact EMaligner.indptrUpTo_chain _ _
      · rw [EMaligner.indptrUpTo_getLast, h2, h1]
        norm_cast

/-- C1 witness: the invariants evaluated on a concrete run: tiles `[1, 2]`,
one match between them, a transform emitting one row with two non-zeros
(values 3 and 4), montage weight 1 — the produced chunk is `cW`. -/
theorem C1_assembly_chunk_invariants_witness :
    ∃ fac ip,
      EMaligner.tilepair_weight 0 0 EMaligner.maW = some fac ∧
      EMaligner.cW.data = some (EMaligner.dataOf
        (EMaligner.chunkBlocks EMaligner.tfW EMaligner.maW [1, 2] [⟨1, 2, 0⟩])) ∧
      EMaligner.cW.indices = some (EMaligner.indicesOf
        (EMaligner.chunkBlocks EMaligner.tfW EMaligner.maW [1, 2] [⟨1, 2, 0⟩])) ∧
      EMaligner.cW.weights = some (EMaligner.weightsOf fac
        (EMaligner.chunkBlocks EMaligner.tfW EMaligner.maW [1, 2] [⟨1, 2, 0⟩])) ∧
      (EMaligner.weightsOf fac
        (EMaligner.chunkBlocks EMaligner.tfW EMaligner.maW [1, 2] [⟨1, 2, 0⟩])).length
        = EMaligner.rowsOf
            (EMaligner.chunkBlocks EMaligner.tfW EMaligner.maW [1, 2] [⟨1, 2, 0⟩]) ∧
      EMaligner.cW.indptr = some ip ∧
      ip.length = EMaligner.rowsOf
        (EMaligner.chunkBlocks EMaligner.tfW EMaligner.maW [1, 2] [⟨1, 2, 0⟩]) + 1 ∧
      ip.head? = some 0 ∧
      List.Chain' (· ≤ ·) ip ∧
      ip.getLast? = some
        (((EMaligner.dataOf
          (EMaligner.chunkBlocks EMaligner.tfW EMaligner.maW [1, 2] [⟨1, 2, 0⟩])).length : ℤ)) :=
  C1_assembly_chunk_invariants EMaligner.tfW EMaligner.maW ⟨0, 0⟩ [1, 2]
    [⟨1, 2, 0⟩] EMaligner.cW
    (fun m p q b hb => by
      injection hb with hb
      rw [← hb]
      unfold EMaligner.blockConsistent
      exact ⟨by decide, by decide, by decide, by decide⟩)
    (by rfl)
    (by decide)

/-- C7: when the match fetch returns nothing, or every fetched match is
discarded by the tile-set filter, `calculate_processing_chunk` returns
normally with the empty chunk: all CSR fields `None` and an all-false
used-tile mask. -/
theorem C7_empty_match_groups (tf : EMaligner.Transform)
    (ma : EMaligner.MatrixAssembly) (pair : EMaligner.Pair)
    (tile_ids : List ℕ) (ms : List EMaligner.PtMatch)
    (h : ms = [] ∨ EMaligner.filter_instack tile_ids ms = []) :
    EMaligner.calculate_processing_chunk tf ma pair tile_ids ms
      = some (EMaligner.emptyChunk tile_ids.length) ∧
    (EMaligner.emptyChunk tile_ids.length).data = none ∧
    (EMaligner.emptyChunk tile_ids.length).indices = none ∧
    (EMaligner.emptyChunk tile_ids.length).indptr = none ∧
    (EMaligner.emptyChunk tile_ids.length).weights = none ∧
    ∀ u ∈ (EMaligner.emptyChunk tile_ids.length).tiles_used, u = false := by
  refine ⟨?_, rfl, rfl, rfl, rfl, ?_⟩
  · unfold EMaligner.calculate_processing_chunk
    rcases h with rfl | hf
    · rfl
    · by_cases hms : ms.length = 0
      · rw [if_pos hms]
      · rw [if_neg hms, if_pos (by rw [hf]; rfl)]
  · intro u hu
    have hu' : u ∈ List.replicate tile_ids.length false := hu
    exact List.eq_of_mem_replicate hu'

/-- C7 witness: an empty match fetch for tiles `[1, 2]` yields the empty
chunk, and a fetch whose only match references the absent tile 7 yields it
too. -/
theorem C7_empty_match_groups_witness :
    (EMaligner.calculate_processing_chunk EMaligner.tfW EMaligner.maW ⟨0, 0⟩
      [1, 2] [] = some (EMaligner.emptyChunk 2) ∧
     (EMaligner.emptyChunk 2).data = none ∧
     (EMaligner.emptyChunk 2).indices = none ∧
     (EMaligner.emptyChunk 2).indptr = none ∧
     (EMaligner.emptyChunk 2).weights = none ∧
     ∀ u ∈ (EMaligner.emptyChunk 2).tiles_used, u = false) ∧
    (EMaligner.calculate_processing_chunk EMaligner.tfW EMaligner.maW ⟨0, 0⟩
      [1, 2] [⟨1, 7, 0⟩] = some (EMaligner.emptyChunk 2)) :=
  ⟨C7_empty_match_groups EMaligner.tfW EMaligner.maW ⟨0, 0⟩ [1, 2] []
      (Or.inl rfl),
    (C7_empty_match_groups EMaligner.tfW EMaligner.maW ⟨0, 0⟩ [1, 2]
      [⟨1, 7, 0⟩] (Or.inr (by decide))).1⟩

namespace EMaligner

lemma set_getD_self (l : List Chunk) (i : ℕ) :
    l.set i (l.getD i default) = l := by
  apply List.ext_getElem?
  intro j
  rw [List.getElem?_set]
  by_cases hij : i = j
  · subst hij
    by_cases hi : i < l.length
    · rw [if_pos rfl, if_pos hi, List.getD_eq_getElem l default hi]
      exact (List.getElem?_eq_getElem hi).symm
    · rw [if_pos rfl, if_neg hi]
      exact (List.getElem?_eq_none (le_of_not_lt hi)).symm
  · rw [if_neg hij]

lemma foldl_chunkStep_skip (c0 : Chunk) (l : List Chunk)
    (h : ∀ c ∈ l, c.data.isSome = false) :
    l.foldl chunkStep c0 = c0 := by
  induction l generalizing c0 with
  | nil => rfl
  | cons c rest ih =>
    rw [List.foldl_cons]
    have hc : chunkStep c0 c = c0 := by
      unfold chunkStep
      rw [h c (List.mem_cons_self c rest)]
      rfl
    rw [hc]
    exact ih c0 (fun c' hc' => h c' (List.mem_cons_of_mem _ hc'))

lemma filter_decomp (chunks : List Chunk)
    (hne : ∃ c ∈ chunks, c.data.isSome = true) :
    firstDataIdx chunks = chunks.findIdx (fun c => c.data.isSome) ∧
    firstDataIdx chunks < chunks.length ∧
    (chunks.getD (firstDataIdx chunks) default).data.isSome = true ∧
    chunks.filter (fun c => c.data.isSome) =
      chunks.getD (firstDataIdx chunks) default ::
        (chunks.drop (firstDataIdx chunks + 1)).filter
          (fun c => c.data.isSome) := by
  have hlt : chunks.findIdx (fun c => c.data.isSome) < chunks.length :=
    List.findIdx_lt_length_of_exists hne
  have hidx : firstDataIdx chunks = chunks.findIdx (fun c => c.data.isSome) := by
    unfold firstDataIdx
    omega
  have hlt' : firstDataIdx chunks < chunks.length := by omega
  have hget : (chunks.getD (firstDataIdx chunks) default).data.isSome = true := by
    have e1 : chunks[firstDataIdx chunks]? =
        chunks[chunks.findIdx (fun c => c.data.isSome)]? := by rw [hidx]
    rw [List.getElem?_eq_getElem hlt', List.getElem?_eq_getElem hlt] at e1
    have e2 : chunks[firstDataIdx chunks] =
        chunks[chunks.findIdx (fun c => c.data.isSome)] := by
      injection e1
    rw [List.getD_eq_getElem chunks default hlt', e2]
    exact @List.findIdx_getElem _ (fun c => c.data.isSome) chunks hlt
  refine ⟨hidx, hlt', hget, ?_⟩
  conv_lhs => rw [← List.take_append_drop (firstDataIdx chunks) chunks]
  rw [List.filter_append]
  have htake : (chunks.take (firstDataIdx chunks)).filter
      (fun c => c.data.isSome) = [] := by
    rw [List.filter_eq_nil_iff]
    intro a ha
    obtain ⟨k, hk, hak⟩ := List.getElem_of_mem ha
    rw [List.length_take] at hk
    have hk2 : k < firstDataIdx chunks := by omega
    have := @List.not_of_lt_findIdx _ (fun c => c.data.isSome) chunks k
      (by omega : k < chunks.findIdx (fun c => c.data.isSome))
    rw [← hak, List.getElem_take]
    simp [this]
  rw [htake, List.nil_append,
    List.drop_eq_getElem_cons hlt',
    List.filter_cons_of_pos
      (by rw [← List.getD_eq_getElem chunks default hlt']; exact hget),
    List.getD_eq_getElem chunks default hlt']

end EMaligner

/-- C8 (counterexample): merging the two non-empty chunks `cA` and `cB` with
`concatenate_chunks` does modify its input list: the first chunk's dict is
the accumulator, so after the call it holds the merged arrays instead of
its original ones. -/
theorem C8_counterexample :
    (EMaligner.concatenate_chunks [EMaligner.cA, EMaligner.cB]).2 ≠
      [EMaligner.cA, EMaligner.cB] := by
  decide

/-- C8 (amended): `concatenate_chunks` leaves every chunk other than the
first non-empty one unchanged, and when no chunk after the first non-empty
one carries data it modifies nothing at all; but the first non-empty chunk
is overwritten in place with the accumulated arrays whenever a later
non-empty chunk exists (see the counterexample). -/
theorem C8_merge_mutates_only_first_chunk (chunks : List EMaligner.Chunk)
    (j : ℕ) (hj : j ≠ EMaligner.firstDataIdx chunks) :
    (EMaligner.concatenate_chunks chunks).2[j]? = chunks[j]? ∧
    ((∀ c ∈ chunks.drop (EMaligner.firstDataIdx chunks + 1), c.data = none) →
      (EMaligner.concatenate_chunks chunks).2 = chunks) := by
  constructor
  · show (chunks.set (EMaligner.firstDataIdx chunks) _)[j]? = chunks[j]?
    rw [List.getElem?_set, if_neg (fun h => hj h.symm)]
  · intro hall
    show chunks.set _
      ((chunks.drop (EMaligner.firstDataIdx chunks + 1)).foldl
        EMaligner.chunkStep
        (chunks.getD (EMaligner.firstDataIdx chunks) default)) = chunks
    rw [EMaligner.foldl_chunkStep_skip _ _
      (fun c hc => by rw [hall c hc]; rfl)]
    exact EMaligner.set_getD_self chunks _

/-- C8 witness: in the two-chunk run `[cA, cB]`, the chunk at position 1
(which is not the first non-empty chunk) is unchanged by the merge. -/
theorem C8_merge_mutates_only_first_chunk_witness :
    ((EMaligner.concatenate_chunks [EMaligner.cA, EMaligner.cB]).2[1]? =
      [EMaligner.cA, EMaligner.cB][1]?) ∧
    ((∀ c ∈ [EMaligner.cA, EMaligner.cB].drop
        (EMaligner.firstDataIdx [EMaligner.cA, EMaligner.cB] + 1),
        c.data = none) →
      (EMaligner.concatenate_chunks [EMaligner.cA, EMaligner.cB]).2 =
        [EMaligner.cA, EMaligner.cB]) :=
  C8_merge_mutates_only_first_chunk [EMaligner.cA, EMaligner.cB] 1 (by decide)

/-- C9: with the profile-data-load option enabled (and no
ingest-from-file short-circuit), the run performs assembly and then raises
the deliberate profile abort: the event trace is exactly one assembly event
followed by `profileAbort`, the solve step never runs, no output is
written, and the early exit is the requested abort (the raised flag), not
an assembly or solve failure event. -/
theorem C9_profile_abort_before_solve (assemble_from_file output_mode : String) :
    (EMaligner.assemble_and_solve_events "" assemble_from_file true
        output_mode).2 = true ∧
    (∃ aev, (aev = EMaligner.RunEvent.assembleFromFile ∨
        aev = EMaligner.RunEvent.assembleFromDB) ∧
      (EMaligner.assemble_and_solve_events "" assemble_from_file true
        output_mode).1 = [aev, EMaligner.RunEvent.profileAbort]) ∧
    EMaligner.RunEvent.solveOrNot ∉
      (EMaligner.assemble_and_solve_events "" assemble_from_file true
        output_mode).1 ∧
    EMaligner.RunEvent.writeStack ∉
      (EMaligner.assemble_and_solve_events "" assemble_from_file true
        output_mode).1 := by
  by_cases haf : assemble_from_file = ""
  · subst haf
    refine ⟨rfl, ⟨EMaligner.RunEvent.assembleFromDB, Or.inr rfl, rfl⟩, ?_, ?_⟩ <;>
      simp [EMaligner.assemble_and_solve_events]
  · refine ⟨?_, ⟨EMaligner.RunEvent.assembleFromFile, Or.inl rfl, ?_⟩, ?_, ?_⟩ <;>
      simp [EMaligner.assemble_and_solve_events, haf]

namespace EMaligner

lemma np_cumsum_length (l : List ℤ) : (np_cumsum l).length = l.length := by
  induction l with
  | nil => rfl
  | cons x xs ih => simp [np_cumsum, ih]

lemma np_cumsum_getD (l : List ℤ) (i : ℕ) (h : i < l.length) :
    (np_cumsum l).getD i 0 = (l.take (i + 1)).sum := by
  induction l generalizing i with
  | nil => cases h
  | cons x xs ih =>
    cases i with
    | zero => simp [np_cumsum]
    | succ i =>
      have hi : i < xs.length := by simpa using h
      have hlen : i < (np_cumsum xs).length := by
        rw [np_cumsum_length]
        exact hi
      have hlen2 : i < ((np_cumsum xs).map (fun y => x + y)).length := by
        rw [List.length_map]
        exact hlen
      unfold np_cumsum
      rw [List.getD_cons_succ, List.getD_eq_getElem _ 0 hlen2,
        List.getElem_map, ← List.getD_eq_getElem _ 0 hlen, ih i hi,
        List.take_succ_cons, List.sum_cons]

lemma rebaseTail_eq_rebaseFrom (rest : List (List ℤ)) (cumends : List ℤ)
    (k : ℕ) (off : ℤ)
    (h : ∀ idx, idx < rest.length → cumends.getD (k + idx) 0 =
      off + ((rest.map (fun j => j.getLastD 0)).take idx).sum) :
    rebaseTail cumends k rest = rebaseFrom off rest := by
  induction rest generalizing k off with
  | nil => rfl
  | cons j rest' ih =>
    unfold rebaseTail rebaseFrom
    have h0 : cumends.getD k 0 = off := by
      have := h 0 (by simp)
      simpa using this
    rw [h0]
    congr 1
    apply ih
    intro idx hidx
    have hstep := h (idx + 1) (by simp only [List.length_cons]; omega)
    rw [show k + (idx + 1) = k + 1 + idx by omega, List.map_cons,
      List.take_succ_cons, List.sum_cons] at hstep
    rw [hstep]
    ring

lemma cumsum_merge_eq_rebaseFrom (ip0 : List ℤ) (rest : List (List ℤ)) :
    ip0 ++ rebaseTail
        (np_cumsum ((ip0 :: rest).map (fun j => j.getLastD 0))) 0 rest
      = ip0 ++ rebaseFrom (ip0.getLastD 0) rest := by
  congr 1
  apply rebaseTail_eq_rebaseFrom
  intro idx hidx
  rw [zero_add, np_cumsum_getD _ idx
    (by simp only [List.length_map, List.length_cons]; omega),
    List.map_cons, List.take_succ_cons, List.sum_cons]

lemma getLast?_of_ne_nil {α : Type*} (l : List α) (h : l ≠ []) :
    ∃ a, l.getLast? = some a := by
  cases hl : l.getLast? with
  | none => exact absurd (List.getLast?_eq_none_iff.mp hl) h
  | some a => exact ⟨a, rfl⟩

lemma getLastD_append_ne_nil (l1 l2 : List ℤ) (h : l2 ≠ []) (d : ℤ) :
    (l1 ++ l2).getLastD d = l2.getLastD d := by
  obtain ⟨a, ha⟩ := getLast?_of_ne_nil l2 h
  rw [List.getLastD_eq_getLast?, List.getLastD_eq_getLast?,
    List.getLast?_append, ha]
  rfl

lemma getLastD_map_add (l : List ℤ) (c d : ℤ) (h : l ≠ []) :
    (l.map (fun x => x + c)).getLastD d = l.getLastD d + c := by
  obtain ⟨a, ha⟩ := getLast?_of_ne_nil l h
  rw [List.getLastD_eq_getLast?, List.getLastD_eq_getLast?,
    List.getLast?_map, ha]
  rfl

lemma getLastD_irrel {α : Type*} (t : List α) (h : t ≠ []) (a b : α) :
    t.getLastD a = t.getLastD b := by
  obtain ⟨x, hx⟩ := getLast?_of_ne_nil t h
  rw [List.getLastD_eq_getLast?, List.getLastD_eq_getLast?, hx]
  rfl

lemma head_zero_shape (ip : List ℤ) (hip : ip.head? = some 0) :
    ∃ t, ip = 0 :: t := by
  cases ip with
  | nil => cases hip
  | cons a t =>
    have ha : a = 0 := by injection hip
    exact ⟨t, by rw [ha]⟩

lemma getLastD_acc_step (acc : List ℤ) (ip : List ℤ)
    (hip : ip.head? = some 0) :
    (acc ++ ip.tail.map (fun x => x + acc.getLastD 0)).getLastD 0
      = acc.getLastD 0 + ip.getLastD 0 := by
  obtain ⟨t, rfl⟩ := head_zero_shape ip hip
  cases ht : t with
  | nil =>
    simp
  | cons y t' =>
    rw [← ht]
    have htne : t ≠ [] := by rw [ht]; exact List.cons_ne_nil y t'
    have hmapne : t.map (fun x => x + acc.getLastD 0) ≠ [] := by
      rw [ht]
      exact List.cons_ne_nil _ _
    rw [show (0 :: t).tail = t from rfl,
      getLastD_append_ne_nil acc _ hmapne 0,
      getLastD_map_add t _ 0 htne,
      show (0 :: t).getLastD 0 = t.getLastD 0 from by
        rw [List.getLastD_eq_getLast?, List.getLast?_cons,
          List.getLastD_eq_getLast?]
        rfl]
    ring

end EMaligner

namespace EMaligner

lemma foldl_acc_eq_rebaseFrom (rest : List (List ℤ)) (acc : List ℤ)
    (hacc : acc ≠ [])
    (hh : ∀ ip ∈ rest, ip.head? = some 0) :
    rest.foldl (fun a ip => a ++ ip.tail.map (fun x => x + a.getLastD 0)) acc
      = acc ++ rebaseFrom (acc.getLastD 0) rest := by
  induction rest generalizing acc with
  | nil =>
    unfold rebaseFrom
    rw [List.append_nil]
    rfl
  | cons ip rest' ih =>
    rw [List.foldl_cons]
    have hip := hh ip (List.mem_cons_self _ _)
    have hne1 : acc ++ ip.tail.map (fun x => x + acc.getLastD 0) ≠ [] :=
      fun hcon => hacc (List.append_eq_nil.mp hcon).1
    rw [ih _ hne1 (fun i hi => hh i (List.mem_cons_of_mem _ hi)),
      getLastD_acc_step acc ip hip, List.append_assoc]
    congr 1

lemma chain_append_rebaseFrom (rest : List (List ℤ)) (acc : List ℤ)
    (hacc : acc ≠ []) (hch : List.Chain' (· ≤ ·) acc)
    (hh : ∀ ip ∈ rest, ip.head? = some 0 ∧ List.Chain' (· ≤ ·) ip) :
    List.Chain' (· ≤ ·) (acc ++ rebaseFrom (acc.getLastD 0) rest) := by
  induction rest generalizing acc with
  | nil =>
    unfold rebaseFrom
    rwa [List.append_nil]
  | cons ip rest' ih =>
    obtain ⟨hip0, hipch⟩ := hh ip (List.mem_cons_self _ _)
    show List.Chain' (· ≤ ·) (acc ++ (ip.tail.map (fun x => x + acc.getLastD 0)
      ++ rebaseFrom (acc.getLastD 0 + ip.getLastD 0) rest'))
    rw [← List.append_assoc, ← getLastD_acc_step acc ip hip0]
    have hne1 : acc ++ ip.tail.map (fun x => x + acc.getLastD 0) ≠ [] :=
      fun hcon => hacc (List.append_eq_nil.mp hcon).1
    apply ih _ hne1 ?_ (fun i hi => hh i (List.mem_cons_of_mem _ hi))
    rw [List.chain'_append]
    refine ⟨hch, ?_, ?_⟩
    · rw [List.chain'_map]
      exact hipch.tail.imp (fun a b hab => by omega)
    · intro x hx y hy
      rw [List.head?_map] at hy
      obtain ⟨t, rfl⟩ := head_zero_shape ip hip0
      cases ht : t with
      | nil =>
        rw [show (0 :: t).tail = t from rfl, ht] at hy
        cases hy
      | cons t0 t' =>
        rw [show (0 :: t).tail = t from rfl, ht] at hy
        have hy0 : y = t0 + acc.getLastD 0 := by
          injection hy with hy
          exact hy.symm
        have hx0 : acc.getLastD 0 = x := by
          rw [List.getLastD_eq_getLast?, hx]
          rfl
        have ht0 : (0 : ℤ) ≤ t0 := by
          rw [ht] at hipch
          exact (List.chain'_cons.mp hipch).1
        rw [hy0, ← hx0]
        omega

lemma rebaseFrom_length (off : ℤ) (rest : List (List ℤ)) :
    (rebaseFrom off rest).length
      = (rest.map (fun ip => ip.length - 1)).sum := by
  induction rest generalizing off with
  | nil => rfl
  | cons ip r ih =>
    unfold rebaseFrom
    rw [List.length_append, List.length_map, List.length_tail, ih,
      List.map_cons, List.sum_cons]

end EMaligner

namespace EMaligner

lemma foldl_chunkStep_char (l : List Chunk) (c0 : Chunk)
    (h1 : c0.data.isSome = true) (h2 : c0.indices.isSome = true)
    (h3 : c0.weights.isSome = true) (h4 : c0.indptr.isSome = true) :
    (l.foldl chunkStep c0).data =
        some (c0.data.getD [] ++
          ((l.filter (fun c => c.data.isSome)).map
            (fun c => c.data.getD [])).flatten) ∧
    (l.foldl chunkStep c0).indices =
        some (c0.indices.getD [] ++
          ((l.filter (fun c => c.data.isSome)).map
            (fun c => c.indices.getD [])).flatten) ∧
    (l.foldl chunkStep c0).weights =
        some (c0.weights.getD [] ++
          ((l.filter (fun c => c.data.isSome)).map
            (fun c => c.weights.getD [])).flatten) ∧
    (l.foldl chunkStep c0).indptr =
        some (((l.filter (fun c => c.data.isSome)).map
            (fun c => c.indptr.getD [])).foldl
          (fun acc ip => acc ++ ip.tail.map (fun x => x + acc.getLastD 0))
          (c0.indptr.getD [])) ∧
    (l.foldl chunkStep c0).tiles_used = c0.tiles_used := by
  induction l generalizing c0 with
  | nil =>
    obtain ⟨d0, hd0⟩ := Option.isSome_iff_exists.mp h1
    obtain ⟨i0, hi0⟩ := Option.isSome_iff_exists.mp h2
    obtain ⟨w0, hw0⟩ := Option.isSome_iff_exists.mp h3
    obtain ⟨p0, hp0⟩ := Option.isSome_iff_exists.mp h4
    simp [hd0, hi0, hw0, hp0]
  | cons c rest ih =>
    rw [List.foldl_cons]
    by_cases hc : c.data.isSome = true
    · have hstep : chunkStep c0 c =
          { c0 with
            data := some (c0.data.getD [] ++ c.data.getD [])
            weights := some (c0.weights.getD [] ++ c.weights.getD [])
            indices := some (c0.indices.getD [] ++ c.indices.getD [])
            zlist := c0.zlist ++ c.zlist
            indptr := some ((c0.indptr.getD []) ++
              ((c.indptr.getD []).tail.map
                (fun x => x + (c0.indptr.getD []).getLastD 0))) } := by
        unfold chunkStep
        rw [if_pos hc]
      rw [hstep]
      simp only [List.filter_cons, hc, if_true]
      obtain ⟨e1, e2, e3, e4, e5⟩ :=
        ih { c0 with
            data := some (c0.data.getD [] ++ c.data.getD [])
            weights := some (c0.weights.getD [] ++ c.weights.getD [])
            indices := some (c0.indices.getD [] ++ c.indices.getD [])
            zlist := c0.zlist ++ c.zlist
            indptr := some ((c0.indptr.getD []) ++
              ((c.indptr.getD []).tail.map
                (fun x => x + (c0.indptr.getD []).getLastD 0))) }
          rfl rfl rfl rfl
      refine ⟨?_, ?_, ?_, ?_, ?_⟩
      · rw [e1]
        simp only [Option.getD_some, List.map_cons, List.flatten_cons,
          List.append_assoc]
      · rw [e2]
        simp only [Option.getD_some, List.map_cons, List.flatten_cons,
          List.append_assoc]
      · rw [e3]
        simp only [Option.getD_some, List.map_cons, List.flatten_cons,
          List.append_assoc]
      · rw [e4, List.map_cons, List.foldl_cons]
        rfl
      · exact e5
    · have hstep : chunkStep c0 c = c0 := by
        unfold chunkStep
        rw [if_neg hc]
      have hcf : c.data.isSome = false := by
        revert hc
        cases c.data.isSome <;> simp
      rw [hstep]
      simp only [List.filter_cons, hcf, Bool.false_eq_true, if_false]
      exact ih c0 h1 h2 h3 h4

end EMaligner

/-- C2: on a chunk collection with at least one non-empty (well-formed)
chunk, `concatenate_results` succeeds and appends the value, column-index
and weight arrays of the non-empty chunks verbatim, and its row-pointer
array equals the accumulator merge that appends each subsequent array's
entries after the leading one offset by the accumulator's current final
row-pointer value; `concatenate_chunks` produces exactly the same four
arrays; and if every non-empty chunk's row-pointer array is non-decreasing
with first entry 0, the merged row-pointer array is non-decreasing and its
length equals the merged row count plus one. -/
theorem C2_merge_concatenation (chunks : List EMaligner.Chunk)
    (hne : ∃ c ∈ chunks, c.data.isSome = true)
    (hwf : ∀ c ∈ chunks, c.data.isSome = true →
      c.indices.isSome = true ∧ c.weights.isSome = true ∧
        c.indptr.isSome = true)
    (hip : ∀ c ∈ chunks, c.data.isSome = true →
      (c.indptr.getD []).head? = some 0 ∧
        List.Chain' (· ≤ ·) (c.indptr.getD [])) :
    ∃ m, EMaligner.concatenate_results chunks = some m ∧
      m.data = ((chunks.filter (fun c => c.data.isSome)).map
        (fun c => c.data.getD [])).flatten ∧
      m.indices = ((chunks.filter (fun c => c.data.isSome)).map
        (fun c => c.indices.getD [])).flatten ∧
      m.weights = ((chunks.filter (fun c => c.data.isSome)).map
        (fun c => c.weights.getD [])).flatten ∧
      m.indptr = EMaligner.mergeIndptrAcc
        ((chunks.filter (fun c => c.data.isSome)).map
          (fun c => c.indptr.getD [])) ∧
      (EMaligner.concatenate_chunks chunks).1.data = some m.data ∧
      (EMaligner.concatenate_chunks chunks).1.indices = some m.indices ∧
      (EMaligner.concatenate_chunks chunks).1.weights = some m.weights ∧
      (EMaligner.concatenate_chunks chunks).1.indptr = some m.indptr ∧
      List.Chain' (· ≤ ·) m.indptr ∧
      m.indptr.length = ((chunks.filter (fun c => c.data.isSome)).map
        (fun c => (c.indptr.getD []).length - 1)).sum + 1 := by
  obtain ⟨hidx, hlt, hgetSome, hfilter⟩ := EMaligner.filter_decomp chunks hne
  set cstar := chunks.getD (EMaligner.firstDataIdx chunks) default with hcstar
  set netail := (chunks.drop (EMaligner.firstDataIdx chunks + 1)).filter
    (fun c => c.data.isSome) with hnetail
  have hcstarMem : cstar ∈ chunks := by
    rw [hcstar, List.getD_eq_getElem chunks default hlt]
    exact List.getElem_mem hlt
  have hwfc := hwf cstar hcstarMem hgetSome
  have hipc := hip cstar hcstarMem hgetSome
  have htailFacts : ∀ ip ∈ netail.map (fun c => c.indptr.getD []),
      ip.head? = some 0 ∧ List.Chain' (· ≤ ·) ip := by
    intro ip hipmem
    obtain ⟨c, hcmem, rfl⟩ := List.mem_map.mp hipmem
    rw [hnetail] at hcmem
    obtain ⟨hcd, hcp⟩ := List.mem_filter.mp hcmem
    exact hip c (List.mem_of_mem_drop hcd) hcp
  have hip0ne : cstar.indptr.getD [] ≠ [] := by
    intro hnil
    rw [hnil] at hipc
    exact absurd hipc.1 (by simp)
  have hunf : cstar.indptr.getD [] ++ EMaligner.rebaseTail
      (EMaligner.np_cumsum
        ((cstar.indptr.getD [] :: netail.map (fun c => c.indptr.getD [])).map
          (fun j => j.getLastD 0))) 0
      (netail.map (fun c => c.indptr.getD []))
      = EMaligner.mergeIndptrAcc
          (cstar.indptr.getD [] :: netail.map (fun c => c.indptr.getD [])) := by
    rw [EMaligner.cumsum_merge_eq_rebaseFrom,
      ← EMaligner.foldl_acc_eq_rebaseFrom _ _ hip0ne
        (fun i hi => (htailFacts i hi).1)]
    rfl
  have hres : EMaligner.concatenate_results chunks = some
      { data := ((cstar :: netail).map (fun c => c.data.getD [])).flatten
        weights := ((cstar :: netail).map (fun c => c.weights.getD [])).flatten
        indices := ((cstar :: netail).map (fun c => c.indices.getD [])).flatten
        zlist := ((cstar :: netail).map (fun c => c.zlist)).flatten
        indptr := cstar.indptr.getD [] ++ EMaligner.rebaseTail
          (EMaligner.np_cumsum
            ((cstar.indptr.getD [] ::
              netail.map (fun c => c.indptr.getD [])).map
              (fun j => j.getLastD 0))) 0
          (netail.map (fun c => c.indptr.getD [])) } := by
    simp only [EMaligner.concatenate_results, hfilter, List.isEmpty_cons,
      Bool.false_eq_true, if_false]
    rfl
  have hcc : (EMaligner.concatenate_chunks chunks).1 =
      (chunks.drop (EMaligner.firstDataIdx chunks + 1)).foldl
        EMaligner.chunkStep cstar := rfl
  obtain ⟨k1, k2, k3, k4, k5⟩ := EMaligner.foldl_chunkStep_char
    (chunks.drop (EMaligner.firstDataIdx chunks + 1)) cstar hgetSome
    hwfc.1 hwfc.2.1 hwfc.2.2
  rw [← hnetail] at k1 k2 k3 k4
  refine ⟨_, hres, ?_, ?_, ?_, ?_, ?_, ?_, ?_, ?_, ?_, ?_⟩
  · rw [hfilter]
  · rw [hfilter]
  · rw [hfilter]
  · show cstar.indptr.getD [] ++ _ = _
    rw [hfilter, List.map_cons]
    exact hunf
  · rw [hcc, k1]
    dsimp only
    rw [List.map_cons, List.flatten_cons]
  · rw [hcc, k2]
    dsimp only
    rw [List.map_cons, List.flatten_cons]
  · rw [hcc, k3]
    dsimp only
    rw [List.map_cons, List.flatten_cons]
  · rw [hcc, k4]
    refine congrArg some ?_
    show _ = cstar.indptr.getD [] ++ _
    rw [EMaligner.cumsum_merge_eq_rebaseFrom,
      ← EMaligner.foldl_acc_eq_rebaseFrom _ _ hip0ne
        (fun i hi => (htailFacts i hi).1)]
  · show List.Chain' (· ≤ ·) (cstar.indptr.getD [] ++ _)
    rw [EMaligner.cumsum_merge_eq_rebaseFrom]
    exact EMaligner.chain_append_rebaseFrom _ _ hip0ne hipc.2 htailFacts
  · show (cstar.indptr.getD [] ++ _).length = _
    rw [EMaligner.cumsum_merge_eq_rebaseFrom, List.length_append,
      EMaligner.rebaseFrom_length, List.map_map, hfilter, List.map_cons,
      List.sum_cons]
    have hcomp : (netail.map
          ((fun ip => ip.length - 1) ∘ fun c => c.indptr.getD [])) =
        netail.map (fun c => (c.indptr.getD []).length - 1) := by
      apply List.map_congr_left
      intro c hc
      rfl
    rw [hcomp]
    have hpos : 0 < (cstar.indptr.getD []).length := List.length_pos.mpr hip0ne
    omega

/-- C2 witness: the merge conclusions evaluated on the concrete two-chunk
collection `[cA, cB]` (each one row, row pointers `[0, 1]`). -/
theorem C2_merge_concatenation_witness :
    ∃ m, EMaligner.concatenate_results [EMaligner.cA, EMaligner.cB] = some m ∧
      m.data = (([EMaligner.cA, EMaligner.cB].filter
        (fun c => c.data.isSome)).map (fun c => c.data.getD [])).flatten ∧
      m.indices = (([EMaligner.cA, EMaligner.cB].filter
        (fun c => c.data.isSome)).map (fun c => c.indices.getD [])).flatten ∧
      m.weights = (([EMaligner.cA, EMaligner.cB].filter
        (fun c => c.data.isSome)).map (fun c => c.weights.getD [])).flatten ∧
      m.indptr = EMaligner.mergeIndptrAcc
        (([EMaligner.cA, EMaligner.cB].filter
          (fun c => c.data.isSome)).map (fun c => c.indptr.getD [])) ∧
      (EMaligner.concatenate_chunks [EMaligner.cA, EMaligner.cB]).1.data
        = some m.data ∧
      (EMaligner.concatenate_chunks [EMaligner.cA, EMaligner.cB]).1.indices
        = some m.indices ∧
      (EMaligner.concatenate_chunks [EMaligner.cA, EMaligner.cB]).1.weights
        = some m.weights ∧
      (EMaligner.concatenate_chunks [EMaligner.cA, EMaligner.cB]).1.indptr
        = some m.indptr ∧
      List.Chain' (· ≤ ·) m.indptr ∧
      m.indptr.length = (([EMaligner.cA, EMaligner.cB].filter
        (fun c => c.data.isSome)).map
          (fun c => (c.indptr.getD []).length - 1)).sum + 1 :=
  C2_merge_concatenation [EMaligner.cA, EMaligner.cB]
    (by decide) (by decide)
    (by
      intro c hc hcd
      have h01 : List.Chain' (· ≤ ·) ([0, 1] : List ℤ) :=
        List.chain'_cons.mpr ⟨by norm_num, List.chain'_singleton _⟩
      rcases List.mem_cons.mp hc with rfl | hc2
      · exact ⟨rfl, h01⟩
      · rcases List.mem_cons.mp hc2 with rfl | hc3
        · exact ⟨rfl, h01⟩
        · cases hc3)

namespace EMaligner

lemma foldl_zipWith_or (rest : List Chunk) (acc : List Bool) (n : ℕ)
    (hacc : acc.length = n) (hn : ∀ c ∈ rest, c.tiles_used.length = n) :
    (rest.foldl (fun a r => List.zipWith (· || ·) a r.tiles_used) acc).length
      = n ∧
    ∀ i, i < n →
      (rest.foldl (fun a r => List.zipWith (· || ·) a r.tiles_used)
        acc).getD i false =
      (acc.getD i false ||
        (rest.map (fun c => c.tiles_used.getD i false)).any id) := by
  induction rest generalizing acc with
  | nil =>
    refine ⟨hacc, fun i hi => ?_⟩
    simp
  | cons r rest' ih =>
    rw [List.foldl_cons]
    have hr : r.tiles_used.length = n := hn r (List.mem_cons_self _ _)
    have hzip : (List.zipWith (· || ·) acc r.tiles_used).length = n := by
      rw [List.length_zipWith, hacc, hr, min_self]
    obtain ⟨ihl, ihv⟩ := ih (List.zipWith (· || ·) acc r.tiles_used) hzip
      (fun c hc => hn c (List.mem_cons_of_mem _ hc))
    refine ⟨ihl, fun i hi => ?_⟩
    rw [ihv i hi]
    have hz : (List.zipWith (· || ·) acc r.tiles_used).getD i false =
        (acc.getD i false || r.tiles_used.getD i false) := by
      rw [List.getD_eq_getElem _ _ (by omega : i <
          (List.zipWith (· || ·) acc r.tiles_used).length),
        List.getElem_zipWith,
        ← List.getD_eq_getElem acc false (by omega),
        ← List.getD_eq_getElem r.tiles_used false (by omega)]
    rw [hz, List.map_cons, List.any_cons]
    simp [Bool.or_assoc]

lemma union_tiles_used_spec (results : List Chunk) (n : ℕ)
    (hne : results ≠ []) (hn : ∀ c ∈ results, c.tiles_used.length = n) :
    (union_tiles_used results).length = n ∧
    ∀ i, i < n → (union_tiles_used results).getD i false =
      (results.map (fun c => c.tiles_used.getD i false)).any id := by
  cases results with
  | nil => exact absurd rfl hne
  | cons c rest =>
    have hc : c.tiles_used.length = n := hn c (List.mem_cons_self _ _)
    obtain ⟨hl, hv⟩ := foldl_zipWith_or rest c.tiles_used n hc
      (fun x hx => hn x (List.mem_cons_of_mem _ hx))
    unfold union_tiles_used
    refine ⟨hl, fun i hi => ?_⟩
    rw [hv i hi, List.map_cons, List.any_cons]
    rfl

lemma selectCols_append (r1 r2 : List ℚ) (m1 m2 : List Bool)
    (h : r1.length = m1.length) :
    selectCols (r1 ++ r2) (m1 ++ m2) = selectCols r1 m1 ++ selectCols r2 m2 := by
  unfold selectCols
  rw [List.zip_append h, List.filter_append, List.map_append]

lemma selectCols_all_true (seg : List ℚ) (k : ℕ) (h : seg.length = k) :
    selectCols seg (List.replicate k true) = seg := by
  induction seg generalizing k with
  | nil =>
    subst h
    rfl
  | cons a s ih =>
    subst h
    rw [List.length_cons, List.replicate_succ]
    unfold selectCols
    rw [List.zip_cons_cons, List.filter_cons_of_pos (by rfl), List.map_cons]
    have hs := ih s.length rfl
    unfold selectCols at hs
    rw [hs]

lemma selectCols_all_false (seg : List ℚ) (k : ℕ) (h : seg.length = k) :
    selectCols seg (List.replicate k false) = [] := by
  induction seg generalizing k with
  | nil =>
    subst h
    rfl
  | cons a s ih =>
    subst h
    rw [List.length_cons, List.replicate_succ]
    unfold selectCols
    rw [List.zip_cons_cons, List.filter_cons_of_neg (by simp)]
    have hs := ih s.length rfl
    unfold selectCols at hs
    rw [hs]

lemma selectCols_slice_ind (tiles_used : List Bool) (dofs : List ℕ)
    (row : List ℚ) (hlen : tiles_used.length = dofs.length)
    (hrow : row.length = dofs.sum) :
    selectCols row (slice_ind tiles_used dofs) =
      ((((splitByDofs row dofs).zip tiles_used).filter
        (fun p => p.2)).map (fun p => p.1)).flatten ∧
    (selectCols row (slice_ind tiles_used dofs)).length =
      usedDofSum tiles_used dofs := by
  induction dofs generalizing tiles_used row with
  | nil =>
    have ht : tiles_used = [] := List.length_eq_zero.mp (by rw [hlen]; rfl)
    subst ht
    constructor
    · simp [selectCols, slice_ind, splitByDofs]
    · simp [selectCols, slice_ind, usedDofSum]
  | cons d ds ih =>
    cases tiles_used with
    | nil => cases hlen
    | cons u us =>
      have hlen' : us.length = ds.length := by simpa using hlen
      have htake : (row.take d).length = d := by
        rw [List.length_take]
        have : row.length = d + ds.sum := by simpa [List.sum_cons] using hrow
        omega
      have hdrop : (row.drop d).length = ds.sum := by
        rw [List.length_drop]
        have : row.length = d + ds.sum := by simpa [List.sum_cons] using hrow
        omega
      have hslice : slice_ind (u :: us) (d :: ds) =
          List.replicate d u ++ slice_ind us ds := by
        unfold slice_ind
        rw [List.zip_cons_cons, List.map_cons, List.flatten_cons]
      have hsplit : splitByDofs row (d :: ds) =
          row.take d :: splitByDofs (row.drop d) ds := rfl
      have hrowsplit : row = row.take d ++ row.drop d :=
        (List.take_append_drop d row).symm
      obtain ⟨ih1, ih2⟩ := ih us (row.drop d) hlen' hdrop
      have hsel : selectCols row (slice_ind (u :: us) (d :: ds)) =
          selectCols (row.take d) (List.replicate d u) ++
            selectCols (row.drop d) (slice_ind us ds) := by
        conv_lhs => rw [hrowsplit, hslice]
        exact selectCols_append _ _ _ _ (by rw [htake, List.length_replicate])
      cases u with
      | true =>
        have hseg : selectCols (row.take d) (List.replicate d true) = row.take d :=
          selectCols_all_true _ d htake
        constructor
        · rw [hsel, hseg, hsplit, List.zip_cons_cons,
            List.filter_cons_of_pos (by rfl), List.map_cons, List.flatten_cons,
            ih1]
        · rw [hsel, List.length_append, hseg, htake, ih2]
          show d + usedDofSum us ds = usedDofSum (true :: us) (d :: ds)
          unfold usedDofSum
          rw [List.zip_cons_cons, List.filter_cons_of_pos (by rfl),
            List.map_cons, List.sum_cons]
      | false =>
        have hseg : selectCols (row.take d) (List.replicate d false) = [] :=
          selectCols_all_false _ d htake
        constructor
        · rw [hsel, hseg, hsplit, List.zip_cons_cons,
            List.filter_cons_of_neg (by simp), List.nil_append, ih1]
        · rw [hsel, List.length_append, hseg, ih2]
          show 0 + usedDofSum us ds = usedDofSum (false :: us) (d :: ds)
          unfold usedDofSum
          rw [List.zip_cons_cons, List.filter_cons_of_neg (by simp)]
          omega

end EMaligner

/-- C5: after all worker chunks are collected, the global used-tile mask is
the element-wise logical OR of every chunk's mask, and (in the
non-persistence path) slicing the design matrix with the per-DOF column
mask keeps exactly the column segments of the used tiles: every sliced row
is the concatenation of the used tiles' segments and has exactly
`sum(DOF of used tiles)` entries. -/
theorem C5_mask_union_and_column_slice (results : List EMaligner.Chunk)
    (n : ℕ) (dofs : List ℕ) (A : List (List ℚ))
    (hne : results ≠ [])
    (hn : ∀ c ∈ results, c.tiles_used.length = n)
    (hd : dofs.length = n)
    (hrow : ∀ row ∈ A, row.length = dofs.sum) :
    (EMaligner.union_tiles_used results).length = n ∧
    (∀ i, i < n → (EMaligner.union_tiles_used results).getD i false =
      (results.map (fun c => c.tiles_used.getD i false)).any id) ∧
    EMaligner.sliceColumns A
        (EMaligner.slice_ind (EMaligner.union_tiles_used results) dofs) =
      A.map (fun row =>
        ((((EMaligner.splitByDofs row dofs).zip
          (EMaligner.union_tiles_used results)).filter
          (fun p => p.2)).map (fun p => p.1)).flatten) ∧
    ∀ row ∈ A,
      (EMaligner.selectCols row
        (EMaligner.slice_ind (EMaligner.union_tiles_used results)
          dofs)).length
        = EMaligner.usedDofSum (EMaligner.union_tiles_used results) dofs := by
  obtain ⟨hl, hv⟩ := EMaligner.union_tiles_used_spec results n hne hn
  refine ⟨hl, hv, ?_, ?_⟩
  · unfold EMaligner.sliceColumns
    apply List.map_congr_left
    intro row hrmem
    exact (EMaligner.selectCols_slice_ind _ dofs row (by rw [hl, hd])
      (hrow row hrmem)).1
  · intro row hrmem
    exact (EMaligner.selectCols_slice_ind _ dofs row (by rw [hl, hd])
      (hrow row hrmem)).2

/-- C5 witness: two chunks with masks `[true, false]` and `[false, true]`
over two tiles with 2 and 1 degrees of freedom: the union mask is
`[true, true]` and the sliced 3-column row keeps all 3 columns. -/
theorem C5_mask_union_and_column_slice_witness :
    (EMaligner.union_tiles_used [EMaligner.cA, EMaligner.cB]).length = 2 ∧
    (∀ i, i < 2 →
      (EMaligner.union_tiles_used [EMaligner.cA, EMaligner.cB]).getD i false =
      ([EMaligner.cA, EMaligner.cB].map
        (fun c => c.tiles_used.getD i false)).any id) ∧
    EMaligner.sliceColumns [[1, 2, 3]]
        (EMaligner.slice_ind
          (EMaligner.union_tiles_used [EMaligner.cA, EMaligner.cB]) [2, 1]) =
      [[1, 2, 3]].map (fun row =>
        ((((EMaligner.splitByDofs row [2, 1]).zip
          (EMaligner.union_tiles_used [EMaligner.cA, EMaligner.cB])).filter
          (fun p => p.2)).map (fun p => p.1)).flatten) ∧
    ∀ row ∈ ([[1, 2, 3]] : List (List ℚ)),
      (EMaligner.selectCols row
        (EMaligner.slice_ind
          (EMaligner.union_tiles_used [EMaligner.cA, EMaligner.cB])
          [2, 1])).length
        = EMaligner.usedDofSum
            (EMaligner.union_tiles_used [EMaligner.cA, EMaligner.cB])
            [2, 1] :=
  C5_mask_union_and_column_slice [EMaligner.cA, EMaligner.cB] 2 [2, 1]
    [[1, 2, 3]] (by decide) (by decide) (by decide)
    (fun row hr => by
      rcases List.mem_cons.mp hr with rfl | hr2
      · rfl
      · cases hr2)
